import Mathlib

/-!
Verification of the Apriori frequent-itemset miner (`apriori.py`) against its
design specification.  The Python source is shallowly embedded below:

* an `Item` is a natural number (the source treats items as opaque ordered
  tokens);
* an `Itemset` is a Python tuple of items, i.e. a `List ℕ`, canonical (sorted,
  duplicate-free) whenever the source builds one via `tuple(sorted(set(...)))`;
* a `Transaction` is a list of items (membership is all that is ever used,
  mirroring Python's `set(transaction)`);
* a Python `dict` / `defaultdict(int)` keyed by itemsets is an
  insertion-ordered association list `SupportDict`, with `dictIncr`
  (`d[key] += 1` on a `defaultdict`), `dictSet` (`d[key] = v`), `dictUpdate`
  (`d.update(new)`), and `dictFind` / `dictGet` (`d[key]` / `d.get(key, 0)`);
* the `while current_itemsets:` loop of `apriori` is a fuel-based recursion
  `aprioriAux`; the fuel `#distinct items + 1` is proved sufficient
  (the loop stabilises, see the termination theorem for C9);
* the float division of `generate_association_rules` is modelled over `ℚ`,
  and Python's `ZeroDivisionError` as `Except.error RuleError.zeroDivision`.
-/

abbrev Item := ℕ

abbrev Itemset := List Item

abbrev Transaction := List Item

abbrev SupportDict := List (Itemset × ℕ)

/-- Python `set(itemset).issubset(t)`, equivalently `set(t).issuperset(itemset)`. -/
def subsetOf (s : Itemset) (t : Transaction) : Bool :=
  s.all fun x => decide (x ∈ t)

/-- Increment of a `defaultdict(int)` entry: `d[key] += 1`.  An existing key is
updated in place, a missing key is appended at the end with value `1`. -/
def dictIncr : SupportDict → Itemset → SupportDict
  | [], key => [(key, 1)]
  | p :: rest, key =>
      if p.1 = key then (p.1, p.2 + 1) :: rest else p :: dictIncr rest key

/-- Python `d[key] = v`: update in place or append. -/
def dictSet : SupportDict → Itemset × ℕ → SupportDict
  | [], q => [q]
  | p :: rest, q => if p.1 = q.1 then q :: rest else p :: dictSet rest q

/-- Python `d.update(new)`: set every entry of `new`, in order. -/
def dictUpdate (d new : SupportDict) : SupportDict :=
  new.foldl dictSet d

/-- Lookup in the association list (the `in`-test / `d[key]` of a dict). -/
def dictFind : SupportDict → Itemset → Option ℕ
  | [], _ => none
  | p :: rest, key => if p.1 = key then some p.2 else dictFind rest key

/-- Python `d.get(key, 0)`. -/
def dictGet (d : SupportDict) (key : Itemset) : ℕ :=
  (dictFind d key).getD 0

/-- The key list of a dict, in insertion order. -/
def dictKeys (d : SupportDict) : List Itemset :=
  d.map Prod.fst

/-- The inner loop of `get_itemset_support`: one transaction's pass over the
candidate list, incrementing every candidate the transaction contains. -/
def countOneTransaction (d : SupportDict) (itemsets : List Itemset) (t : Transaction) :
    SupportDict :=
  itemsets.foldl (fun d2 s => if subsetOf s t then dictIncr d2 s else d2) d

/-- The outer loop of `get_itemset_support`, started from an arbitrary dict. -/
def countAll (transactions : List Transaction) (itemsets : List Itemset)
    (d : SupportDict) : SupportDict :=
  transactions.foldl (fun d2 t => countOneTransaction d2 itemsets t) d

/-- Source `get_itemset_support`: for every transaction, for every candidate,
increment the candidate's counter when the transaction is a superset of it.
A candidate matched by no transaction never receives a key
(`defaultdict` creates keys only on write). -/
def get_itemset_support (transactions : List Transaction) (itemsets : List Itemset) :
    SupportDict :=
  countAll transactions itemsets []

/-- Source `filter_itemsets_by_support`: keep the entries whose count meets the
threshold.  The threshold is an arbitrary integer, exactly as in Python where
no validation restricts it. -/
def filter_itemsets_by_support (itemset_support : SupportDict) (min_support : ℤ) :
    SupportDict :=
  itemset_support.filter fun p => decide (min_support ≤ (p.2 : ℤ))

/-- Python `tuple(sorted(set(l)))`: the canonical (sorted, duplicate-free)
itemset on the members of `l`. -/
def canon (l : List ℕ) : List ℕ :=
  List.insertionSort (· ≤ ·) l.dedup

/-- The ordered pairs `(l[i], l[j])` with `i < j`, mirroring the nested
`for i ... for j in range(i+1, ...)` loops of `generate_candidates`. -/
def allPairs : List Itemset → List (Itemset × Itemset)
  | [] => []
  | x :: xs => (xs.map fun y => (x, y)) ++ allPairs xs

/-- Insertion into the Python `set` of candidates, keeping first-insertion
order (the set only dedupes; order of the final `list(...)` is immaterial to
every property below). -/
def addCand (acc : List Itemset) (c : Itemset) : List Itemset :=
  if c ∈ acc then acc else acc ++ [c]

/-- Source `generate_candidates`: join every pair of distinct keys of the
frequent table that agree on their first `k-1` items; the candidate is the
canonical union of the pair.  No subset-pruning step is performed. -/
def generate_candidates (frequent_itemsets : SupportDict) (k : ℕ) : List Itemset :=
  (allPairs (dictKeys frequent_itemsets)).foldl
    (fun acc pr =>
      if pr.1.take (k - 1) = pr.2.take (k - 1) then addCand acc (canon (pr.1 ++ pr.2))
      else acc)
    []

/-- The narrowing test of `apriori` line 114:
`any(set(itemset).issubset(t) for itemset in current_itemsets)`. -/
def matchesAny (cands : List Itemset) (t : Transaction) : Bool :=
  cands.any fun c => subsetOf c t

/-- The distinct items occurring in the dataset
(`{item for transaction in transactions for item in transaction}`). -/
def itemUniverse (transactions : List Transaction) : Finset ℕ :=
  transactions.flatten.toFinset

/-- The initial single-item candidates, in sorted order
(`[tuple([item]) for item in sorted(items)]`). -/
def initialCandidates (transactions : List Transaction) : List Itemset :=
  (canon transactions.flatten).map fun x => [x]

/-- The `while current_itemsets:` loop of `apriori`, with explicit fuel.
Each iteration counts support, filters by the threshold, merges the level into
the accumulator, generates the next candidates, and — once `k+1 > 2` — narrows
the working dataset to the transactions matching some new candidate. -/
def aprioriAux :
    ℕ → List Transaction → List Itemset → ℕ → SupportDict → ℤ → SupportDict
  | 0, _, _, _, acc, _ => acc
  | _ + 1, _, [], _, acc, _ => acc
  | fuel + 1, transactions, c :: cs, k, acc, min_support =>
      let sup := get_itemset_support transactions (c :: cs)
      let freq := filter_itemsets_by_support sup min_support
      let acc2 := dictUpdate acc freq
      let next := generate_candidates freq k
      let transactions2 :=
        if 2 < k + 1 then transactions.filter (fun t => matchesAny next t)
        else transactions
      aprioriAux fuel transactions2 next (k + 1) acc2 min_support

/-- Source `apriori`: run the level-wise loop from the single-item candidates.
The fuel `#distinct items + 1` is proved sufficient below: the candidate size
grows by one per level and is bounded by the number of distinct items. -/
def apriori (transactions : List Transaction) (min_support : ℤ) : SupportDict :=
  aprioriAux ((itemUniverse transactions).card + 1) transactions
    (initialCandidates transactions) 1 [] min_support

/-- Modelled from the spec (§4.2, claim C6): the identical level-wise
computation run WITHOUT the `k > 2` transaction-narrowing step; every level
counts support over the full original dataset.  This is the reference side of
the refinement claim; `aprioriAux` above is the source side. -/
def aprioriNoNarrowAux :
    ℕ → List Transaction → List Itemset → ℕ → SupportDict → ℤ → SupportDict
  | 0, _, _, _, acc, _ => acc
  | _ + 1, _, [], _, acc, _ => acc
  | fuel + 1, transactions, c :: cs, k, acc, min_support =>
      let sup := get_itemset_support transactions (c :: cs)
      let freq := filter_itemsets_by_support sup min_support
      let acc2 := dictUpdate acc freq
      let next := generate_candidates freq k
      aprioriNoNarrowAux fuel transactions next (k + 1) acc2 min_support

/-- Modelled from the spec (§4.2, claim C6): `apriori` without narrowing. -/
def aprioriNoNarrow (transactions : List Transaction) (min_support : ℤ) : SupportDict :=
  aprioriNoNarrowAux ((itemUniverse transactions).card + 1) transactions
    (initialCandidates transactions) 1 [] min_support

/-- Python's `ZeroDivisionError`, the only failure the rule generator can
raise (`confidence = itemset_support / antecedent_support` with a zero
denominator).  No `MissingAntecedentSupport` error kind exists in the source. -/
inductive RuleError where
  | zeroDivision
  deriving DecidableEq, Repr

/-- An emitted rule `(antecedent, consequent, support, confidence)`. -/
abbrev Rule := Itemset × Itemset × ℕ × ℚ

/-- Python `tuple(sorted(comb))`. -/
def sortTuple (l : List ℕ) : List ℕ :=
  l.insertionSort (· ≤ ·)

/-- The antecedent candidates of an itemset: every combination of `i` of its
items for `i = 1 .. len-1`
(`[tuple(sorted(comb)) for i in range(1, len(itemset)) for comb in combinations(itemset, i)]`). -/
def antecedentsOf (itemset : Itemset) : List Itemset :=
  ((List.range (itemset.length - 1)).map fun i =>
      (List.sublistsLen (i + 1) itemset).map sortTuple).flatten

/-- Python `tuple(sorted(set(itemset) - set(antecedent)))`. -/
def consequentOf (itemset antecedent : Itemset) : Itemset :=
  canon (itemset.filter fun x => decide (x ∉ antecedent))

/-- The inner antecedent loop of `generate_association_rules`.  The antecedent
support is looked up with `frequent_itemsets.get(antecedent, 0)`; a missing
antecedent therefore yields support `0` and the division raises
`ZeroDivisionError`, aborting the whole computation. -/
def garAntecedents (freq : SupportDict) (min_conf : ℚ) (itemset : Itemset) (isup : ℕ) :
    List Itemset → List Rule → Except RuleError (List Rule)
  | [], rules => .ok rules
  | a :: rest, rules =>
      let c := consequentOf itemset a
      if c = [] then garAntecedents freq min_conf itemset isup rest rules
      else
        let asup := dictGet freq a
        if asup = 0 then .error .zeroDivision
        else
          let conf : ℚ := (isup : ℚ) / (asup : ℚ)
          if min_conf ≤ conf then
            garAntecedents freq min_conf itemset isup rest (rules ++ [(a, c, isup, conf)])
          else garAntecedents freq min_conf itemset isup rest rules

/-- The outer itemset loop of `generate_association_rules`: itemsets of size
`< 2` are skipped. -/
def garItemsets (freq : SupportDict) (min_conf : ℚ) :
    List (Itemset × ℕ) → List Rule → Except RuleError (List Rule)
  | [], rules => .ok rules
  | p :: rest, rules =>
      if p.1.length < 2 then garItemsets freq min_conf rest rules
      else
        match garAntecedents freq min_conf p.1 p.2 (antecedentsOf p.1) rules with
        | .error e => .error e
        | .ok rules2 => garItemsets freq min_conf rest rules2

/-- Source `generate_association_rules`.  The `transactions_count` argument is
accepted but never read by the body. -/
def generate_association_rules (frequent_itemsets : SupportDict) (min_confidence : ℚ)
    (transactions_count : ℕ) : Except RuleError (List Rule) :=
  garItemsets frequent_itemsets min_confidence frequent_itemsets []

/-- The number of transactions that are supersets of `c` — the true support
count of the specification. -/
def trueCount (transactions : List Transaction) (c : Itemset) : ℕ :=
  (transactions.filter fun t => subsetOf c t).length

/-- Invariant of the level-wise loop: the current candidates are distinct
canonical itemsets of size `k` whose items lie in the universe `U`. -/
def LevelInv (U : Finset ℕ) (k : ℕ) (C : List Itemset) : Prop :=
  C.Nodup ∧ ∀ c ∈ C, c.Sorted (· < ·) ∧ c.length = k ∧ ∀ x ∈ c, x ∈ U

/-- A canonical itemset of size exactly `k` that is frequent in `transactions`
at threshold `ms` (and occurs in at least one transaction, as required for it
to receive a `defaultdict` key at all). -/
def FreqAt (transactions : List Transaction) (ms : ℤ) (k : ℕ) (S : Itemset) : Prop :=
  S.Sorted (· < ·) ∧ S.length = k ∧ 1 ≤ trueCount transactions S ∧
    ms ≤ (trueCount transactions S : ℤ)

/-- A frequent canonical itemset of size below `k`. -/
def FreqBelow (transactions : List Transaction) (ms : ℤ) (k : ℕ) (S : Itemset) : Prop :=
  S.Sorted (· < ·) ∧ 1 ≤ S.length ∧ S.length < k ∧ 1 ≤ trueCount transactions S ∧
    ms ≤ (trueCount transactions S : ℤ)

/-- A nonempty frequent canonical itemset, of any size: exactly the itemsets
the Apriori Engine records. -/
def FreqAll (transactions : List Transaction) (ms : ℤ) (S : Itemset) : Prop :=
  S.Sorted (· < ·) ∧ 1 ≤ S.length ∧ 1 ≤ trueCount transactions S ∧
    ms ≤ (trueCount transactions S : ℤ)

/-! ### Basic facts about the dict embedding -/

theorem subsetOf_iff {s : Itemset} {t : Transaction} :
    subsetOf s t = true ↔ ∀ x ∈ s, x ∈ t := by
  simp [subsetOf]

theorem matchesAny_iff {cands : List Itemset} {t : Transaction} :
    matchesAny cands t = true ↔ ∃ c ∈ cands, subsetOf c t = true := by
  simp [matchesAny]

theorem dictKeys_nil : dictKeys [] = [] := rfl

theorem dictKeys_cons (p : Itemset × ℕ) (d : SupportDict) :
    dictKeys (p :: d) = p.1 :: dictKeys d := rfl

theorem dictFind_dictIncr_self (d : SupportDict) (c : Itemset) :
    dictFind (dictIncr d c) c = some (dictGet d c + 1) := by
  induction d with
  | nil => simp [dictIncr, dictFind, dictGet]
  | cons p rest ih =>
      by_cases h : p.1 = c
      · simp [dictIncr, h, dictFind, dictGet]
      · simp [dictIncr, h, dictFind, dictGet] at ih ⊢
        exact ih

theorem dictFind_dictIncr_ne (d : SupportDict) (c c' : Itemset) (h : c' ≠ c) :
    dictFind (dictIncr d c) c' = dictFind d c' := by
  have hcc : ¬c = c' := fun hh => h hh.symm
  induction d with
  | nil => simp [dictIncr, dictFind, hcc]
  | cons p rest ih =>
      by_cases hp : p.1 = c
      · simp [dictIncr, hp, dictFind, hcc]
      · by_cases hp2 : p.1 = c'
        · simp [dictIncr, hp, dictFind, hp2, h]
        · simp [dictIncr, hp, dictFind, hp2, ih]

theorem dictKeys_dictIncr (d : SupportDict) (c : Itemset) :
    dictKeys (dictIncr d c) =
      if c ∈ dictKeys d then dictKeys d else dictKeys d ++ [c] := by
  induction d with
  | nil => simp [dictIncr, dictKeys]
  | cons p rest ih =>
      by_cases hp : p.1 = c
      · simp [dictIncr, hp, dictKeys_cons]
      · have hcp : ¬c = p.1 := fun hh => hp hh.symm
        by_cases hm : c ∈ dictKeys rest
        · simp [dictIncr, hp, dictKeys_cons, ih, hm, hcp]
        · simp [dictIncr, hp, dictKeys_cons, ih, hm, hcp]

theorem mem_dictKeys_dictIncr {d : SupportDict} {c a : Itemset}
    (h : a ∈ dictKeys (dictIncr d c)) : a ∈ dictKeys d ∨ a = c := by
  rw [dictKeys_dictIncr] at h
  by_cases hm : c ∈ dictKeys d
  · simp [hm] at h
    exact Or.inl h
  · simp [hm] at h
    exact h

theorem dictKeys_dictIncr_nodup {d : SupportDict} {c : Itemset}
    (h : (dictKeys d).Nodup) : (dictKeys (dictIncr d c)).Nodup := by
  rw [dictKeys_dictIncr]
  by_cases hm : c ∈ dictKeys d
  · simpa [hm] using h
  · simp only [hm, if_false]
    exact List.Nodup.append h (List.nodup_singleton c) (by simpa using hm)

theorem dictFind_eq_none_iff {d : SupportDict} {c : Itemset} :
    dictFind d c = none ↔ c ∉ dictKeys d := by
  induction d with
  | nil => simp [dictFind, dictKeys]
  | cons p rest ih =>
      by_cases hp : p.1 = c
      · simp [dictFind, hp, dictKeys_cons]
      · have hcp : ¬c = p.1 := fun hh => hp hh.symm
        simp [dictFind, hp, dictKeys_cons, ih, hcp]

theorem mem_of_dictFind_eq_some {d : SupportDict} {c : Itemset} {n : ℕ}
    (h : dictFind d c = some n) : (c, n) ∈ d := by
  induction d with
  | nil => simp [dictFind] at h
  | cons p rest ih =>
      by_cases hp : p.1 = c
      · simp [dictFind, hp] at h
        exact List.mem_cons.2 (Or.inl (by rw [← hp, ← h]))
      · simp [dictFind, hp] at h
        exact List.mem_cons.2 (Or.inr (ih h))

theorem dictFind_of_mem {d : SupportDict} {c : Itemset} {n : ℕ}
    (h : (c, n) ∈ d) (hnd : (dictKeys d).Nodup) : dictFind d c = some n := by
  induction d with
  | nil => simp at h
  | cons p rest ih =>
      rw [dictKeys_cons, List.nodup_cons] at hnd
      rcases List.mem_cons.1 h with h1 | h1
      · rw [← h1]
        simp [dictFind]
      · have hne : p.1 ≠ c := by
          intro he
          apply hnd.1
          rw [he]
          exact List.mem_map_of_mem Prod.fst h1
        simp [dictFind, hne]
        exact ih h1 hnd.2

/-! ### Support counting -/

theorem dictGet_dictIncr_ne (d : SupportDict) (s c : Itemset) (h : c ≠ s) :
    dictGet (dictIncr d s) c = dictGet d c := by
  unfold dictGet
  rw [dictFind_dictIncr_ne d s c h]

theorem countOneTransaction_cons (d : SupportDict) (s : Itemset) (rest : List Itemset)
    (t : Transaction) :
    countOneTransaction d (s :: rest) t =
      countOneTransaction (if subsetOf s t then dictIncr d s else d) rest t := rfl

theorem countOneTransaction_find_of_not_mem {C : List Itemset} {c : Itemset}
    (h : c ∉ C) (d : SupportDict) (t : Transaction) :
    dictFind (countOneTransaction d C t) c = dictFind d c := by
  induction C generalizing d with
  | nil => rfl
  | cons s rest ih =>
      rw [countOneTransaction_cons]
      have hcs : c ≠ s := fun he => h (he ▸ List.mem_cons_self s rest)
      have hcr : c ∉ rest := fun he => h (List.mem_cons_of_mem s he)
      rw [ih hcr]
      by_cases hst : subsetOf s t
      · rw [if_pos hst, dictFind_dictIncr_ne d s c hcs]
      · rw [if_neg hst]

theorem countOneTransaction_find {C : List Itemset} (hC : C.Nodup) {c : Itemset}
    (hc : c ∈ C) (d : SupportDict) (t : Transaction) :
    dictFind (countOneTransaction d C t) c =
      if subsetOf c t then some (dictGet d c + 1) else dictFind d c := by
  induction C generalizing d with
  | nil => simp at hc
  | cons s rest ih =>
      rw [countOneTransaction_cons]
      rw [List.nodup_cons] at hC
      rcases List.mem_cons.1 hc with h1 | h1
      · subst h1
        have hnotin : c ∉ rest := hC.1
        rw [countOneTransaction_find_of_not_mem hnotin]
        by_cases hst : subsetOf c t
        · rw [if_pos hst, if_pos hst, dictFind_dictIncr_self]
        · rw [if_neg hst, if_neg hst]
      · have hcs : c ≠ s := by
          intro he
          exact hC.1 (he ▸ h1)
        rw [ih hC.2 h1]
        by_cases hst : subsetOf s t
        · rw [if_pos hst, dictGet_dictIncr_ne d s c hcs, dictFind_dictIncr_ne d s c hcs]
        · rw [if_neg hst]

theorem countOneTransaction_get {C : List Itemset} (hC : C.Nodup) {c : Itemset}
    (hc : c ∈ C) (d : SupportDict) (t : Transaction) :
    dictGet (countOneTransaction d C t) c =
      if subsetOf c t then dictGet d c + 1 else dictGet d c := by
  unfold dictGet
  rw [countOneTransaction_find hC hc]
  by_cases hst : subsetOf c t
  · rw [if_pos hst, if_pos hst]
    rfl
  · rw [if_neg hst, if_neg hst]

theorem countAll_nil (C : List Itemset) (d : SupportDict) : countAll [] C d = d := rfl

theorem countAll_cons (t : Transaction) (T : List Transaction) (C : List Itemset)
    (d : SupportDict) :
    countAll (t :: T) C d = countAll T C (countOneTransaction d C t) := rfl

theorem trueCount_nil (c : Itemset) : trueCount [] c = 0 := rfl

theorem trueCount_cons (t : Transaction) (T : List Transaction) (c : Itemset) :
    trueCount (t :: T) c =
      if subsetOf c t then trueCount T c + 1 else trueCount T c := by
  by_cases hst : subsetOf c t <;> simp [trueCount, hst]

theorem countAll_find {C : List Itemset} (hC : C.Nodup) {c : Itemset} (hc : c ∈ C)
    (T : List Transaction) (d : SupportDict) :
    dictFind (countAll T C d) c =
      if trueCount T c = 0 then dictFind d c
      else some (dictGet d c + trueCount T c) := by
  induction T generalizing d with
  | nil => simp [countAll_nil, trueCount_nil]
  | cons t T ih =>
      rw [countAll_cons, ih, trueCount_cons]
      by_cases hst : subsetOf c t
      · rw [if_pos hst, countOneTransaction_find hC hc, countOneTransaction_get hC hc,
          if_pos hst, if_pos hst]
        by_cases hz : trueCount T c = 0
        · simp [hz]
        · have h1 : ¬(trueCount T c + 1 = 0) := Nat.succ_ne_zero _
          rw [if_neg hz, if_neg h1]
          congr 1
          omega
      · rw [if_neg hst, countOneTransaction_find hC hc, countOneTransaction_get hC hc,
          if_neg hst, if_neg hst]

theorem get_itemset_support_find {C : List Itemset} (hC : C.Nodup) {c : Itemset}
    (hc : c ∈ C) (T : List Transaction) :
    dictFind (get_itemset_support T C) c =
      if trueCount T c = 0 then none else some (trueCount T c) := by
  rw [get_itemset_support, countAll_find hC hc]
  simp [dictFind, dictGet]

theorem mem_dictKeys_countOneTransaction {d : SupportDict} {C : List Itemset}
    {t : Transaction} {a : Itemset} (h : a ∈ dictKeys (countOneTransaction d C t)) :
    a ∈ dictKeys d ∨ a ∈ C := by
  induction C generalizing d with
  | nil => exact Or.inl h
  | cons s rest ih =>
      rw [countOneTransaction_cons] at h
      rcases ih h with h1 | h1
      · by_cases hst : subsetOf s t
        · rw [if_pos hst] at h1
          rcases mem_dictKeys_dictIncr h1 with h2 | h2
          · exact Or.inl h2
          · exact Or.inr (h2 ▸ List.mem_cons_self s rest)
        · rw [if_neg hst] at h1
          exact Or.inl h1
      · exact Or.inr (List.mem_cons_of_mem s h1)

theorem dictKeys_countOneTransaction_nodup {d : SupportDict} {C : List Itemset}
    {t : Transaction} (h : (dictKeys d).Nodup) :
    (dictKeys (countOneTransaction d C t)).Nodup := by
  induction C generalizing d with
  | nil => exact h
  | cons s rest ih =>
      rw [countOneTransaction_cons]
      by_cases hst : subsetOf s t
      · rw [if_pos hst]
        exact ih (dictKeys_dictIncr_nodup h)
      · rw [if_neg hst]
        exact ih h

theorem mem_dictKeys_countAll {T : List Transaction} {C : List Itemset}
    {d : SupportDict} {a : Itemset} (h : a ∈ dictKeys (countAll T C d)) :
    a ∈ dictKeys d ∨ a ∈ C := by
  induction T generalizing d with
  | nil => exact Or.inl h
  | cons t T ih =>
      rw [countAll_cons] at h
      rcases ih h with h1 | h1
      · exact mem_dictKeys_countOneTransaction h1
      · exact Or.inr h1

theorem dictKeys_countAll_nodup {T : List Transaction} {C : List Itemset}
    {d : SupportDict} (h : (dictKeys d).Nodup) : (dictKeys (countAll T C d)).Nodup := by
  induction T generalizing d with
  | nil => exact h
  | cons t T ih =>
      rw [countAll_cons]
      exact ih (dictKeys_countOneTransaction_nodup h)

theorem mem_dictKeys_get_itemset_support {T : List Transaction} {C : List Itemset}
    {a : Itemset} (h : a ∈ dictKeys (get_itemset_support T C)) : a ∈ C := by
  rcases mem_dictKeys_countAll h with h1 | h1
  · simp [dictKeys] at h1
  · exact h1

theorem dictKeys_get_itemset_support_nodup (T : List Transaction) (C : List Itemset) :
    (dictKeys (get_itemset_support T C)).Nodup :=
  dictKeys_countAll_nodup (by simp [dictKeys])

theorem dictIncr_value_pos {d : SupportDict} (hd : ∀ q ∈ d, 1 ≤ q.2) (c : Itemset) :
    ∀ q ∈ dictIncr d c, 1 ≤ q.2 := by
  induction d with
  | nil =>
      intro q hq
      simp [dictIncr] at hq
      simp [hq]
  | cons p rest ih =>
      intro q hq
      by_cases hp : p.1 = c
      · simp [dictIncr, hp] at hq
        rcases hq with hq | hq
        · simp [hq]
        · exact hd q (List.mem_cons_of_mem p hq)
      · simp only [dictIncr, hp, if_false] at hq
        rcases List.mem_cons.1 hq with hq | hq
        · exact hq ▸ hd p (List.mem_cons_self p rest)
        · exact ih (fun r hr => hd r (List.mem_cons_of_mem p hr)) q hq

theorem countOneTransaction_value_pos {d : SupportDict} {C : List Itemset}
    {t : Transaction} (hd : ∀ q ∈ d, 1 ≤ q.2) :
    ∀ q ∈ countOneTransaction d C t, 1 ≤ q.2 := by
  induction C generalizing d with
  | nil => exact hd
  | cons s rest ih =>
      rw [countOneTransaction_cons]
      by_cases hst : subsetOf s t
      · rw [if_pos hst]
        exact ih (dictIncr_value_pos hd s)
      · rw [if_neg hst]
        exact ih hd

theorem countAll_value_pos {T : List Transaction} {C : List Itemset} {d : SupportDict}
    (hd : ∀ q ∈ d, 1 ≤ q.2) : ∀ q ∈ countAll T C d, 1 ≤ q.2 := by
  induction T generalizing d with
  | nil => exact hd
  | cons t T ih =>
      rw [countAll_cons]
      exact ih (countOneTransaction_value_pos hd)

theorem get_itemset_support_value_pos {T : List Transaction} {C : List Itemset} :
    ∀ q ∈ get_itemset_support T C, 1 ≤ q.2 :=
  countAll_value_pos (by simp)

/-! ### Narrowing the dataset to matching transactions leaves counting unchanged -/

theorem countOneTransaction_no_match {C : List Itemset} {t : Transaction}
    (h : matchesAny C t = false) (d : SupportDict) :
    countOneTransaction d C t = d := by
  induction C generalizing d with
  | nil => rfl
  | cons s rest ih =>
      rw [matchesAny, List.any_cons, Bool.or_eq_false_iff] at h
      rw [countOneTransaction_cons, if_neg (by simp [h.1]), ih h.2]

theorem countAll_narrow (C : List Itemset) (T : List Transaction) (d : SupportDict) :
    countAll (T.filter fun t => matchesAny C t) C d = countAll T C d := by
  induction T generalizing d with
  | nil => rfl
  | cons t T ih =>
      rw [List.filter_cons]
      by_cases hm : matchesAny C t
      · rw [if_pos (by simp [hm]), countAll_cons, countAll_cons, ih]
      · rw [if_neg (by simp [Bool.eq_false_iff.2 hm]), countAll_cons,
          countOneTransaction_no_match (Bool.eq_false_iff.2 hm) d, ih]

theorem get_itemset_support_narrow (C : List Itemset) (T : List Transaction) :
    get_itemset_support (T.filter fun t => matchesAny C t) C =
      get_itemset_support T C := by
  rw [get_itemset_support, get_itemset_support, countAll_narrow]

/-! ### The itemset filter -/

theorem mem_filter_itemsets {d : SupportDict} {ms : ℤ} {p : Itemset × ℕ} :
    p ∈ filter_itemsets_by_support d ms ↔ p ∈ d ∧ ms ≤ (p.2 : ℤ) := by
  simp [filter_itemsets_by_support]

theorem filter_itemsets_sublist (d : SupportDict) (ms : ℤ) :
    List.Sublist (filter_itemsets_by_support d ms) d :=
  List.filter_sublist d

theorem dictKeys_filter_nodup {d : SupportDict} {ms : ℤ} (h : (dictKeys d).Nodup) :
    (dictKeys (filter_itemsets_by_support d ms)).Nodup :=
  List.Nodup.sublist ((filter_itemsets_sublist d ms).map Prod.fst) h

theorem mem_dictKeys {d : SupportDict} {a : Itemset} :
    a ∈ dictKeys d ↔ ∃ n, (a, n) ∈ d := by
  rw [dictKeys, List.mem_map]
  constructor
  · rintro ⟨p, hp, he⟩
    exact ⟨p.2, by rw [← he]; simpa using hp⟩
  · rintro ⟨n, hn⟩
    exact ⟨(a, n), hn, rfl⟩

theorem dictFind_filter_none {d : SupportDict} {ms : ℤ} {c : Itemset}
    (h : dictFind d c = none) : dictFind (filter_itemsets_by_support d ms) c = none := by
  rw [dictFind_eq_none_iff] at h ⊢
  intro hmem
  rcases mem_dictKeys.1 hmem with ⟨n, hn⟩
  exact h (mem_dictKeys.2 ⟨n, (mem_filter_itemsets.1 hn).1⟩)

theorem dictFind_filter_some {d : SupportDict} {ms : ℤ} {c : Itemset} {n : ℕ}
    (hnd : (dictKeys d).Nodup) (h : dictFind d c = some n) :
    dictFind (filter_itemsets_by_support d ms) c =
      if ms ≤ (n : ℤ) then some n else none := by
  by_cases hms : ms ≤ (n : ℤ)
  · rw [if_pos hms]
    exact dictFind_of_mem
      (mem_filter_itemsets.2 ⟨mem_of_dictFind_eq_some h, hms⟩)
      (dictKeys_filter_nodup hnd)
  · rw [if_neg hms, dictFind_eq_none_iff]
    intro hmem
    rcases mem_dictKeys.1 hmem with ⟨m, hm⟩
    have hmd := (mem_filter_itemsets.1 hm).1
    have hfind : dictFind d c = some m := dictFind_of_mem hmd hnd
    have hnm : n = m := by
      rw [h] at hfind
      exact Option.some.inj hfind
    apply hms
    rw [hnm]
    exact (mem_filter_itemsets.1 hm).2

/-! ### The dict update -/

theorem dictSet_find_self (d : SupportDict) (q : Itemset × ℕ) :
    dictFind (dictSet d q) q.1 = some q.2 := by
  induction d with
  | nil => simp [dictSet, dictFind]
  | cons p rest ih =>
      by_cases hp : p.1 = q.1
      · simp [dictSet, hp, dictFind]
      · simp [dictSet, hp, dictFind, ih]

theorem dictSet_find_ne (d : SupportDict) (q : Itemset × ℕ) (c : Itemset)
    (h : c ≠ q.1) : dictFind (dictSet d q) c = dictFind d c := by
  have hqc : ¬q.1 = c := fun hh => h hh.symm
  induction d with
  | nil => simp [dictSet, dictFind, hqc]
  | cons p rest ih =>
      by_cases hp : p.1 = q.1
      · simp [dictSet, hp, dictFind, hqc]
      · simp [dictSet, hp, dictFind, ih]

theorem mem_dictKeys_dictSet {d : SupportDict} {q : Itemset × ℕ} {a : Itemset}
    (h : a ∈ dictKeys (dictSet d q)) : a ∈ dictKeys d ∨ a = q.1 := by
  induction d with
  | nil =>
      simp [dictSet, dictKeys] at h
      exact Or.inr h
  | cons p rest ih =>
      by_cases hp : p.1 = q.1
      · simp [dictSet, hp, dictKeys_cons] at h ⊢
        rcases h with h | h
        · exact Or.inr h
        · exact Or.inl (Or.inr h)
      · simp only [dictSet, hp, if_false, dictKeys_cons, List.mem_cons] at h ⊢
        rcases h with h | h
        · exact Or.inl (Or.inl h)
        · rcases ih h with h2 | h2
          · exact Or.inl (Or.inr h2)
          · exact Or.inr h2

theorem dictKeys_dictSet_nodup {d : SupportDict} {q : Itemset × ℕ}
    (h : (dictKeys d).Nodup) : (dictKeys (dictSet d q)).Nodup := by
  induction d with
  | nil => simp [dictSet, dictKeys]
  | cons p rest ih =>
      rw [dictKeys_cons, List.nodup_cons] at h
      by_cases hp : p.1 = q.1
      · simp only [dictSet, hp, if_true, dictKeys_cons, List.nodup_cons]
        exact ⟨hp ▸ h.1, h.2⟩
      · simp only [dictSet, hp, if_false, dictKeys_cons, List.nodup_cons]
        refine ⟨fun hmem => ?_, ih h.2⟩
        rcases mem_dictKeys_dictSet hmem with h2 | h2
        · exact h.1 h2
        · exact hp h2

theorem dictUpdate_cons (d : SupportDict) (q : Itemset × ℕ) (new : SupportDict) :
    dictUpdate d (q :: new) = dictUpdate (dictSet d q) new := rfl

theorem dictFind_dictUpdate_of_none {d new : SupportDict} {c : Itemset}
    (h : dictFind new c = none) : dictFind (dictUpdate d new) c = dictFind d c := by
  induction new generalizing d with
  | nil => rfl
  | cons q rest ih =>
      by_cases hq : q.1 = c
      · simp [dictFind, hq] at h
      · rw [dictFind] at h
        rw [if_neg hq] at h
        rw [dictUpdate_cons, ih h, dictSet_find_ne d q c (fun hh => hq hh.symm)]

theorem dictFind_dictUpdate_of_some {d new : SupportDict} {c : Itemset} {n : ℕ}
    (hnew : (dictKeys new).Nodup) (h : dictFind new c = some n) :
    dictFind (dictUpdate d new) c = some n := by
  induction new generalizing d with
  | nil => simp [dictFind] at h
  | cons q rest ih =>
      rw [dictKeys_cons, List.nodup_cons] at hnew
      by_cases hq : q.1 = c
      · have hrest : dictFind rest c = none := by
          rw [dictFind_eq_none_iff]
          exact hq ▸ hnew.1
        rw [dictFind, if_pos hq] at h
        rw [dictUpdate_cons, dictFind_dictUpdate_of_none hrest, ← hq,
          dictSet_find_self]
        exact h
      · rw [dictFind, if_neg hq] at h
        rw [dictUpdate_cons]
        exact ih hnew.2 h

theorem mem_dictKeys_dictUpdate {d new : SupportDict} {a : Itemset}
    (h : a ∈ dictKeys (dictUpdate d new)) : a ∈ dictKeys d ∨ a ∈ dictKeys new := by
  induction new generalizing d with
  | nil => exact Or.inl h
  | cons q rest ih =>
      rw [dictUpdate_cons] at h
      rcases ih h with h1 | h1
      · rcases mem_dictKeys_dictSet h1 with h2 | h2
        · exact Or.inl h2
        · exact Or.inr (by rw [dictKeys_cons, h2]; exact List.mem_cons_self q.1 _)
      · exact Or.inr (by rw [dictKeys_cons]; exact List.mem_cons_of_mem q.1 h1)

theorem dictKeys_dictUpdate_nodup {d new : SupportDict}
    (h : (dictKeys d).Nodup) : (dictKeys (dictUpdate d new)).Nodup := by
  induction new generalizing d with
  | nil => exact h
  | cons q rest ih =>
      rw [dictUpdate_cons]
      exact ih (dictKeys_dictSet_nodup h)

/-! ### Canonical itemsets -/

theorem mem_canon {l : List ℕ} {x : ℕ} : x ∈ canon l ↔ x ∈ l := by
  rw [canon, (List.perm_insertionSort (· ≤ ·) l.dedup).mem_iff]
  exact List.mem_dedup

theorem canon_sorted_le (l : List ℕ) : (canon l).Sorted (· ≤ ·) :=
  List.sorted_insertionSort (· ≤ ·) l.dedup

theorem canon_nodup (l : List ℕ) : (canon l).Nodup :=
  (List.perm_insertionSort (· ≤ ·) l.dedup).nodup_iff.2 (List.nodup_dedup l)

theorem canon_sorted_lt (l : List ℕ) : (canon l).Sorted (· < ·) :=
  (canon_sorted_le l).lt_of_le (canon_nodup l)

theorem canon_toFinset (l : List ℕ) : (canon l).toFinset = l.toFinset := by
  ext x
  simp [List.mem_toFinset, mem_canon]

theorem canon_length (l : List ℕ) : (canon l).length = l.toFinset.card := by
  rw [← canon_toFinset, List.toFinset_card_of_nodup (canon_nodup l)]

theorem canon_eq_of_sorted {l S : List ℕ} (hS : S.Sorted (· < ·))
    (h : ∀ x, x ∈ l ↔ x ∈ S) : canon l = S := by
  apply List.eq_of_perm_of_sorted ?_ (canon_sorted_le l) (hS.imp le_of_lt)
  apply List.perm_of_nodup_nodup_toFinset_eq (canon_nodup l) hS.nodup
  rw [canon_toFinset]
  ext x
  simp [List.mem_toFinset, h]

theorem canon_eq_self {l : List ℕ} (h : l.Sorted (· < ·)) : canon l = l :=
  canon_eq_of_sorted h fun _ => Iff.rfl

/-! ### Candidate generation -/

theorem mem_allPairs {l : List Itemset} {pr : Itemset × Itemset}
    (h : pr ∈ allPairs l) : pr.1 ∈ l ∧ pr.2 ∈ l := by
  induction l with
  | nil => simp [allPairs] at h
  | cons x xs ih =>
      rw [allPairs, List.mem_append] at h
      rcases h with h | h
      · rcases List.mem_map.1 h with ⟨y, hy, he⟩
        rw [← he]
        exact ⟨List.mem_cons_self x xs, List.mem_cons_of_mem x hy⟩
      · exact ⟨List.mem_cons_of_mem x (ih h).1, List.mem_cons_of_mem x (ih h).2⟩

theorem allPairs_complete {l : List Itemset} {a b : Itemset} (ha : a ∈ l)
    (hb : b ∈ l) (hab : a ≠ b) :
    (a, b) ∈ allPairs l ∨ (b, a) ∈ allPairs l := by
  induction l with
  | nil => simp at ha
  | cons x xs ih =>
      rcases List.mem_cons.1 ha with ha1 | ha1
      · have hbx : b ∈ xs := by
          rcases List.mem_cons.1 hb with hb1 | hb1
          · exact absurd (ha1.trans hb1.symm) hab
          · exact hb1
        left
        rw [allPairs, List.mem_append]
        exact Or.inl (List.mem_map.2 ⟨b, hbx, by rw [ha1]⟩)
      · rcases List.mem_cons.1 hb with hb1 | hb1
        · right
          rw [allPairs, List.mem_append]
          exact Or.inl (List.mem_map.2 ⟨a, ha1, by rw [hb1]⟩)
        · rcases ih ha1 hb1 with h | h
          · exact Or.inl (by rw [allPairs, List.mem_append]; exact Or.inr h)
          · exact Or.inr (by rw [allPairs, List.mem_append]; exact Or.inr h)

theorem allPairs_ne {l : List Itemset} (hnd : l.Nodup) {pr : Itemset × Itemset}
    (h : pr ∈ allPairs l) : pr.1 ≠ pr.2 := by
  induction l with
  | nil => simp [allPairs] at h
  | cons x xs ih =>
      rw [List.nodup_cons] at hnd
      rw [allPairs, List.mem_append] at h
      rcases h with h | h
      · rcases List.mem_map.1 h with ⟨y, hy, he⟩
        rw [← he]
        intro hxy
        simp only [] at hxy
        exact hnd.1 (hxy ▸ hy)
      · exact ih hnd.2 h

theorem mem_addCand {acc : List Itemset} {x c : Itemset} :
    c ∈ addCand acc x ↔ c ∈ acc ∨ c = x := by
  rw [addCand]
  by_cases h : x ∈ acc
  · rw [if_pos h]
    constructor
    · exact Or.inl
    · rintro (h1 | h1)
      · exact h1
      · exact h1 ▸ h
  · rw [if_neg h]
    simp

theorem addCand_nodup {acc : List Itemset} (h : acc.Nodup) (x : Itemset) :
    (addCand acc x).Nodup := by
  rw [addCand]
  by_cases hm : x ∈ acc
  · rwa [if_pos hm]
  · rw [if_neg hm]
    exact List.Nodup.append h (List.nodup_singleton x) (by simpa using hm)

theorem mem_gcFold {k : ℕ} {pairs : List (Itemset × Itemset)} {acc : List Itemset}
    {c : Itemset} :
    c ∈ pairs.foldl
        (fun acc2 pr =>
          if pr.1.take (k - 1) = pr.2.take (k - 1) then addCand acc2 (canon (pr.1 ++ pr.2))
          else acc2) acc ↔
      c ∈ acc ∨ ∃ pr ∈ pairs,
        pr.1.take (k - 1) = pr.2.take (k - 1) ∧ c = canon (pr.1 ++ pr.2) := by
  induction pairs generalizing acc with
  | nil => simp
  | cons pr rest ih =>
      rw [List.foldl_cons]
      by_cases hc : pr.1.take (k - 1) = pr.2.take (k - 1)
      · rw [if_pos hc, ih]
        simp only [mem_addCand, List.mem_cons]
        constructor
        · rintro ((h | h) | ⟨q, hq, hcond, he⟩)
          · exact Or.inl h
          · exact Or.inr ⟨pr, Or.inl rfl, hc, h⟩
          · exact Or.inr ⟨q, Or.inr hq, hcond, he⟩
        · rintro (h | ⟨q, hq | hq, hcond, he⟩)
          · exact Or.inl (Or.inl h)
          · exact Or.inl (Or.inr (by rw [he, hq]))
          · exact Or.inr ⟨q, hq, hcond, he⟩
      · rw [if_neg hc, ih]
        constructor
        · rintro (h | ⟨q, hq, hcond, he⟩)
          · exact Or.inl h
          · exact Or.inr ⟨q, List.mem_cons_of_mem pr hq, hcond, he⟩
        · rintro (h | ⟨q, hq, hcond, he⟩)
          · exact Or.inl h
          · rcases List.mem_cons.1 hq with hq1 | hq1
            · exact absurd (hq1 ▸ hcond) hc
            · exact Or.inr ⟨q, hq1, hcond, he⟩

theorem mem_generate_candidates {F : SupportDict} {k : ℕ} {c : Itemset} :
    c ∈ generate_candidates F k ↔
      ∃ pr ∈ allPairs (dictKeys F),
        pr.1.take (k - 1) = pr.2.take (k - 1) ∧ c = canon (pr.1 ++ pr.2) := by
  rw [generate_candidates, mem_gcFold]
  simp

theorem gcFold_nodup {k : ℕ} {pairs : List (Itemset × Itemset)} {acc : List Itemset}
    (h : acc.Nodup) :
    (pairs.foldl
        (fun acc2 pr =>
          if pr.1.take (k - 1) = pr.2.take (k - 1) then addCand acc2 (canon (pr.1 ++ pr.2))
          else acc2) acc).Nodup := by
  induction pairs generalizing acc with
  | nil => exact h
  | cons pr rest ih =>
      rw [List.foldl_cons]
      by_cases hc : pr.1.take (k - 1) = pr.2.take (k - 1)
      · rw [if_pos hc]
        exact ih (addCand_nodup h _)
      · rw [if_neg hc]
        exact ih h

theorem generate_candidates_nodup (F : SupportDict) (k : ℕ) :
    (generate_candidates F k).Nodup :=
  gcFold_nodup List.nodup_nil

theorem generate_candidates_exists_subset {F : SupportDict} {k : ℕ} {c : Itemset}
    (h : c ∈ generate_candidates F k) : ∃ s ∈ dictKeys F, ∀ x ∈ s, x ∈ c := by
  rcases mem_generate_candidates.1 h with ⟨pr, hpr, _, he⟩
  refine ⟨pr.1, (mem_allPairs hpr).1, fun x hx => ?_⟩
  rw [he, mem_canon]
  exact List.mem_append_left pr.2 hx

/-! ### Shape of generated candidates -/

theorem exists_last_decomp {s : Itemset} {k : ℕ} (hk : 1 ≤ k) (hls : s.length = k) :
    ∃ a, s = s.take (k - 1) ++ [a] := by
  have h1 : (s.drop (k - 1)).length = 1 := by
    rw [List.length_drop, hls]
    omega
  rcases List.length_eq_one.1 h1 with ⟨a, ha⟩
  exact ⟨a, by rw [← ha, List.take_append_drop]⟩

theorem canon_join_length {s t : Itemset} {k : ℕ} (hk : 1 ≤ k)
    (hs : s.Sorted (· < ·)) (ht : t.Sorted (· < ·))
    (hls : s.length = k) (hlt : t.length = k) (hne : s ≠ t)
    (hpre : s.take (k - 1) = t.take (k - 1)) :
    (canon (s ++ t)).length = k + 1 := by
  obtain ⟨a, ha⟩ := exists_last_decomp hk hls
  obtain ⟨b, hb⟩ := exists_last_decomp hk hlt
  obtain ⟨p, hp⟩ : ∃ p, p = s.take (k - 1) := ⟨_, rfl⟩
  rw [← hp] at ha
  have hb2 : t = p ++ [b] := by rw [hb, ← hpre, ← hp]
  have hab : a ≠ b := by
    intro he
    apply hne
    rw [ha, hb2, he]
  have hsnd : (p ++ [a]).Nodup := ha ▸ hs.nodup
  have htnd : (p ++ [b]).Nodup := hb2 ▸ ht.nodup
  rw [List.nodup_append] at hsnd htnd
  have hanp : a ∉ p.toFinset := by
    rw [List.mem_toFinset]
    intro hmem
    exact hsnd.2.2 hmem (List.mem_singleton_self a)
  have hbnp : b ∉ p.toFinset := by
    rw [List.mem_toFinset]
    intro hmem
    exact htnd.2.2 hmem (List.mem_singleton_self b)
  have hU : (s ++ t).toFinset = insert a (insert b p.toFinset) := by
    rw [ha, hb2]
    ext x
    simp only [List.toFinset_append, Finset.mem_union, List.mem_toFinset,
      List.mem_singleton, Finset.mem_insert]
    tauto
  have hplen : p.length = k - 1 := by
    rw [hp, List.length_take, hls]
    omega
  have hpcard : p.toFinset.card = k - 1 := by
    rw [List.toFinset_card_of_nodup hsnd.1, hplen]
  rw [canon_length, hU, Finset.card_insert_of_not_mem, Finset.card_insert_of_not_mem hbnp,
    hpcard]
  · omega
  · simp only [Finset.mem_insert]
    rintro (h | h)
    · exact hab h
    · exact hanp h

/-! ### The level invariant: candidates are canonical size-k itemsets over the
item universe -/

theorem levelInv_initial (T : List Transaction) :
    LevelInv (itemUniverse T) 1 (initialCandidates T) := by
  constructor
  · rw [initialCandidates]
    exact (canon_nodup T.flatten).map fun a b hab => by
      simpa using congrArg (fun l => l.headI) hab
  · intro c hc
    rcases List.mem_map.1 hc with ⟨x, hx, he⟩
    rw [← he]
    refine ⟨List.sorted_singleton x, rfl, fun y hy => ?_⟩
    rw [List.mem_singleton.1 hy]
    rw [itemUniverse, List.mem_toFinset]
    exact mem_canon.1 hx

theorem dictKeys_filter_sub {d : SupportDict} {ms : ℤ} {a : Itemset}
    (h : a ∈ dictKeys (filter_itemsets_by_support d ms)) : a ∈ dictKeys d := by
  rcases mem_dictKeys.1 h with ⟨n, hn⟩
  exact mem_dictKeys.2 ⟨n, (mem_filter_itemsets.1 hn).1⟩

theorem freq_keys_mem {T : List Transaction} {C : List Itemset} {ms : ℤ} {a : Itemset}
    (h : a ∈ dictKeys (filter_itemsets_by_support (get_itemset_support T C) ms)) :
    a ∈ C :=
  mem_dictKeys_get_itemset_support (dictKeys_filter_sub h)

theorem freq_keys_nodup (T : List Transaction) (C : List Itemset) (ms : ℤ) :
    (dictKeys (filter_itemsets_by_support (get_itemset_support T C) ms)).Nodup :=
  dictKeys_filter_nodup (dictKeys_get_itemset_support_nodup T C)

theorem levelInv_step {U : Finset ℕ} {k : ℕ} {C : List Itemset}
    (h : LevelInv U k C) (hk : 1 ≤ k) (T : List Transaction) (ms : ℤ) :
    LevelInv U (k + 1)
      (generate_candidates (filter_itemsets_by_support (get_itemset_support T C) ms) k) := by
  refine ⟨generate_candidates_nodup _ k, fun c hc => ?_⟩
  rcases mem_generate_candidates.1 hc with ⟨pr, hpr, hcond, he⟩
  have h1 : pr.1 ∈ C := freq_keys_mem (mem_allPairs hpr).1
  have h2 : pr.2 ∈ C := freq_keys_mem (mem_allPairs hpr).2
  have hne : pr.1 ≠ pr.2 := allPairs_ne (freq_keys_nodup T C ms) hpr
  obtain ⟨hs1, hl1, hU1⟩ := h.2 pr.1 h1
  obtain ⟨hs2, hl2, hU2⟩ := h.2 pr.2 h2
  subst he
  refine ⟨canon_sorted_lt _, canon_join_length hk hs1 hs2 hl1 hl2 hne hcond, ?_⟩
  intro x hx
  rcases List.mem_append.1 (mem_canon.1 hx) with hx1 | hx1
  · exact hU1 x hx1
  · exact hU2 x hx1

theorem levelInv_le_card {U : Finset ℕ} {k : ℕ} {C : List Itemset}
    (h : LevelInv U k C) (hne : C ≠ []) : k ≤ U.card := by
  rcases List.exists_mem_of_ne_nil C hne with ⟨c, hc⟩
  obtain ⟨hsort, hlen, hsub⟩ := h.2 c hc
  calc k = c.toFinset.card := by rw [List.toFinset_card_of_nodup hsort.nodup, hlen]
    _ ≤ U.card := Finset.card_le_card fun x hx => hsub x (List.mem_toFinset.1 hx)

/-! ### Narrowing is invisible: the loop with and without the optimization -/

theorem filter_absorb {T : List Transaction} {p q : Transaction → Bool}
    (h : ∀ t, q t = true → p t = true) : (T.filter p).filter q = T.filter q := by
  induction T with
  | nil => rfl
  | cons t T ih =>
      by_cases hp : p t
      · rw [List.filter_cons, if_pos (by simp [hp]), List.filter_cons, List.filter_cons, ih]
      · have hq : ¬(q t = true) := fun hh => hp (h t hh)
        rw [List.filter_cons, if_neg (by simpa using hp), List.filter_cons,
          if_neg (by simpa using hq), ih]

theorem matchesAny_next_imp {T : List Transaction} {C : List Itemset} {ms : ℤ} {k : ℕ}
    {t : Transaction}
    (h : matchesAny (generate_candidates
      (filter_itemsets_by_support (get_itemset_support T C) ms) k) t = true) :
    matchesAny C t = true := by
  rcases matchesAny_iff.1 h with ⟨c, hc, hct⟩
  rcases generate_candidates_exists_subset hc with ⟨s, hs, hsc⟩
  refine matchesAny_iff.2 ⟨s, freq_keys_mem hs, subsetOf_iff.2 fun x hx => ?_⟩
  exact subsetOf_iff.1 hct x (hsc x hx)

theorem aprioriNoNarrowAux_nil (fuel : ℕ) (T : List Transaction) (k : ℕ)
    (acc : SupportDict) (ms : ℤ) :
    aprioriNoNarrowAux fuel T [] k acc ms = acc := by
  cases fuel <;> rfl

theorem aprioriNoNarrowAux_cons (fuel : ℕ) (T : List Transaction) (c : Itemset)
    (cs : List Itemset) (k : ℕ) (acc : SupportDict) (ms : ℤ) :
    aprioriNoNarrowAux (fuel + 1) T (c :: cs) k acc ms =
      aprioriNoNarrowAux fuel T
        (generate_candidates
          (filter_itemsets_by_support (get_itemset_support T (c :: cs)) ms) k)
        (k + 1)
        (dictUpdate acc
          (filter_itemsets_by_support (get_itemset_support T (c :: cs)) ms))
        ms := rfl

theorem aprioriAux_nil (fuel : ℕ) (T : List Transaction) (k : ℕ)
    (acc : SupportDict) (ms : ℤ) :
    aprioriAux fuel T [] k acc ms = acc := by
  cases fuel <;> rfl

theorem aprioriAux_cons (fuel : ℕ) (T : List Transaction) (c : Itemset)
    (cs : List Itemset) (k : ℕ) (acc : SupportDict) (ms : ℤ) :
    aprioriAux (fuel + 1) T (c :: cs) k acc ms =
      aprioriAux fuel
        (if 2 < k + 1 then
          T.filter fun t => matchesAny
            (generate_candidates
              (filter_itemsets_by_support (get_itemset_support T (c :: cs)) ms) k) t
        else T)
        (generate_candidates
          (filter_itemsets_by_support (get_itemset_support T (c :: cs)) ms) k)
        (k + 1)
        (dictUpdate acc
          (filter_itemsets_by_support (get_itemset_support T (c :: cs)) ms))
        ms := rfl

theorem noNarrowAux_filter :
    ∀ fuel (T : List Transaction) (C : List Itemset) (k : ℕ) (acc : SupportDict)
      (ms : ℤ),
      aprioriNoNarrowAux fuel (T.filter fun t => matchesAny C t) C k acc ms =
        aprioriNoNarrowAux fuel T C k acc ms := by
  intro fuel
  induction fuel with
  | zero => intro T C k acc ms; rfl
  | succ fuel ih =>
      intro T C k acc ms
      cases C with
      | nil => rfl
      | cons c cs =>
          rw [aprioriNoNarrowAux_cons, aprioriNoNarrowAux_cons, get_itemset_support_narrow]
          have h1 : (T.filter fun t => matchesAny (c :: cs) t).filter
              (fun t => matchesAny
                (generate_candidates (filter_itemsets_by_support
                  (get_itemset_support T (c :: cs)) ms) k) t) =
              T.filter (fun t => matchesAny
                (generate_candidates (filter_itemsets_by_support
                  (get_itemset_support T (c :: cs)) ms) k) t) :=
            filter_absorb fun t ht => matchesAny_next_imp ht
          rw [← ih (T.filter fun t => matchesAny (c :: cs) t), h1, ih]

theorem aprioriAux_eq_noNarrow :
    ∀ fuel (T : List Transaction) (C : List Itemset) (k : ℕ) (acc : SupportDict)
      (ms : ℤ),
      aprioriAux fuel T C k acc ms = aprioriNoNarrowAux fuel T C k acc ms := by
  intro fuel
  induction fuel with
  | zero => intro T C k acc ms; rfl
  | succ fuel ih =>
      intro T C k acc ms
      cases C with
      | nil => rfl
      | cons c cs =>
          rw [aprioriAux_cons, aprioriNoNarrowAux_cons]
          by_cases hk : 2 < k + 1
          · rw [if_pos hk, ih, noNarrowAux_filter]
          · rw [if_neg hk, ih]

theorem noNarrowAux_stable {U : Finset ℕ} :
    ∀ fuel extra (T : List Transaction) (C : List Itemset) (k : ℕ) (acc : SupportDict)
      (ms : ℤ),
      LevelInv U k C → 1 ≤ k → U.card + 2 ≤ fuel + k →
      aprioriNoNarrowAux (fuel + extra) T C k acc ms =
        aprioriNoNarrowAux fuel T C k acc ms := by
  intro fuel
  induction fuel with
  | zero =>
      intro extra T C k acc ms hinv hk hb
      cases C with
      | nil => rw [aprioriNoNarrowAux_nil, aprioriNoNarrowAux_nil]
      | cons c cs =>
          exfalso
          have := levelInv_le_card hinv (by simp)
          omega
  | succ fuel ih =>
      intro extra T C k acc ms hinv hk hb
      cases C with
      | nil => rw [aprioriNoNarrowAux_nil, aprioriNoNarrowAux_nil]
      | cons c cs =>
          have he : fuel + 1 + extra = (fuel + extra) + 1 := by omega
          rw [he, aprioriNoNarrowAux_cons, aprioriNoNarrowAux_cons]
          exact ih extra T _ (k + 1) _ ms (levelInv_step hinv hk T ms) (by omega) (by omega)

theorem apriori_fuel_stable (T : List Transaction) (ms : ℤ) (extra : ℕ) :
    aprioriAux ((itemUniverse T).card + 1 + extra) T (initialCandidates T) 1 [] ms =
      apriori T ms := by
  rw [apriori, aprioriAux_eq_noNarrow, aprioriAux_eq_noNarrow]
  exact noNarrowAux_stable ((itemUniverse T).card + 1) extra T (initialCandidates T) 1 [] ms
    (levelInv_initial T) le_rfl (by omega)

/-! ### Characterizing the entries of the filtered support table -/

theorem filter_support_find {T : List Transaction} {C : List Itemset} {ms : ℤ}
    (hnd : C.Nodup) {S : Itemset} {n : ℕ} :
    dictFind (filter_itemsets_by_support (get_itemset_support T C) ms) S = some n ↔
      (S ∈ C ∧ 1 ≤ trueCount T S ∧ ms ≤ (trueCount T S : ℤ) ∧ n = trueCount T S) := by
  constructor
  · intro h
    have hmemk : S ∈ dictKeys (filter_itemsets_by_support (get_itemset_support T C) ms) :=
      mem_dictKeys.2 ⟨n, mem_of_dictFind_eq_some h⟩
    have hSC : S ∈ C := freq_keys_mem hmemk
    have hsup := get_itemset_support_find hnd hSC T
    by_cases hz : trueCount T S = 0
    · rw [if_pos hz] at hsup
      rw [dictFind_filter_none hsup] at h
      exact absurd h (by simp)
    · rw [if_neg hz] at hsup
      rw [dictFind_filter_some (dictKeys_get_itemset_support_nodup T C) hsup] at h
      by_cases hms : ms ≤ (trueCount T S : ℤ)
      · rw [if_pos hms] at h
        exact ⟨hSC, by omega, hms, (Option.some.inj h).symm⟩
      · rw [if_neg hms] at h
        exact absurd h (by simp)
  · rintro ⟨hSC, h1, hms, hn⟩
    have hsup : dictFind (get_itemset_support T C) S = some (trueCount T S) := by
      rw [get_itemset_support_find hnd hSC, if_neg (by omega)]
    rw [dictFind_filter_some (dictKeys_get_itemset_support_nodup T C) hsup, if_pos hms, hn]

theorem trueCount_mono {T : List Transaction} {S big : Itemset}
    (h : ∀ x ∈ S, x ∈ big) : trueCount T big ≤ trueCount T S := by
  rw [trueCount, trueCount, ← List.countP_eq_length_filter, ← List.countP_eq_length_filter]
  apply List.countP_mono_left
  intro t _ hsub
  exact subsetOf_iff.2 fun x hx => subsetOf_iff.1 hsub x (h x hx)

theorem exists_transaction_of_trueCount_pos {T : List Transaction} {S : Itemset}
    (h : 1 ≤ trueCount T S) : ∃ t ∈ T, subsetOf S t = true := by
  rw [trueCount] at h
  rcases List.exists_mem_of_ne_nil _ (List.ne_nil_of_length_pos h) with ⟨t, ht⟩
  rw [List.mem_filter] at ht
  exact ⟨t, ht.1, ht.2⟩

/-! ### Every frequent itemset is generated: completeness of the level-wise
search -/

theorem freqAt_take {T : List Transaction} {ms : ℤ} {j : ℕ} {S : Itemset}
    (hj : 1 ≤ j) (h : FreqAt T ms (j + 1) S) : FreqAt T ms j (S.take j) := by
  obtain ⟨hs, hl, h1, hms⟩ := h
  have hmono : trueCount T S ≤ trueCount T (S.take j) :=
    trueCount_mono fun x hx => List.mem_of_mem_take hx
  refine ⟨hs.sublist (List.take_sublist j S), ?_, by omega, ?_⟩
  · rw [List.length_take, hl]
    omega
  · have hcast : (trueCount T S : ℤ) ≤ (trueCount T (S.take j) : ℤ) := by
      exact_mod_cast hmono
    omega

theorem freqAt_empty_above {T : List Transaction} {ms : ℤ} {k : ℕ} (hk : 1 ≤ k)
    (hempty : ∀ S, FreqAt T ms k S → False) :
    ∀ m S, FreqAt T ms (k + m) S → False := by
  intro m
  induction m with
  | zero => exact hempty
  | succ m ih =>
      intro S h
      exact ih (S.take (k + m)) (freqAt_take (by omega) h)

theorem freqAll_lt_of_empty {T : List Transaction} {ms : ℤ} {k : ℕ} {S : Itemset}
    (hk : 1 ≤ k) (hempty : ∀ S', FreqAt T ms k S' → False)
    (h : FreqAll T ms S) : S.length < k := by
  by_contra hlen
  push_neg at hlen
  obtain ⟨m, hm⟩ : ∃ m, S.length = k + m := ⟨S.length - k, by omega⟩
  exact freqAt_empty_above hk hempty m S ⟨h.1, hm, h.2.2.1, h.2.2.2⟩

theorem next_complete {U : Finset ℕ} {T : List Transaction} {C : List Itemset}
    {ms : ℤ} {k : ℕ} (hinv : LevelInv U k C) (hk : 1 ≤ k)
    (hcand : ∀ S, FreqAt T ms k S → S ∈ C) :
    ∀ S, FreqAt T ms (k + 1) S →
      S ∈ generate_candidates
        (filter_itemsets_by_support (get_itemset_support T C) ms) k := by
  intro S hS
  obtain ⟨hs, hl, h1, hms⟩ := hS
  obtain ⟨p, hp⟩ : ∃ p, p = S.take (k - 1) := ⟨_, rfl⟩
  have hdl : (S.drop (k - 1)).length = 2 := by
    rw [List.length_drop, hl]
    omega
  obtain ⟨a, b, hab⟩ := List.length_eq_two.1 hdl
  have hSdecomp : S = p ++ [a, b] := by rw [hp, ← hab, List.take_append_drop]
  have hpl : p.length = k - 1 := by
    rw [hp, List.length_take, hl]
    omega
  have hs1Sub : List.Sublist (p ++ [a]) S := by
    rw [hSdecomp]
    exact (List.Sublist.cons₂ a (List.nil_sublist [b])).append_left p
  have hs2Sub : List.Sublist (p ++ [b]) S := by
    rw [hSdecomp]
    exact (List.Sublist.cons a (List.Sublist.refl [b])).append_left p
  have haneb : a ≠ b := by
    have hnd : (p ++ [a, b]).Nodup := hSdecomp ▸ hs.nodup
    rw [List.nodup_append] at hnd
    simpa using hnd.2.1
  have hs1ne : p ++ [a] ≠ p ++ [b] := by
    intro he
    apply haneb
    have := congrArg (fun l => l.drop p.length) he
    simpa [List.drop_left] using this
  have hfreq1 : FreqAt T ms k (p ++ [a]) := by
    have hmono : trueCount T S ≤ trueCount T (p ++ [a]) :=
      trueCount_mono fun x hx => hs1Sub.mem hx
    have hcast : (trueCount T S : ℤ) ≤ (trueCount T (p ++ [a]) : ℤ) := by
      exact_mod_cast hmono
    refine ⟨hs.sublist hs1Sub, ?_, by omega, by omega⟩
    rw [List.length_append, hpl]
    simp
    omega
  have hfreq2 : FreqAt T ms k (p ++ [b]) := by
    have hmono : trueCount T S ≤ trueCount T (p ++ [b]) :=
      trueCount_mono fun x hx => hs2Sub.mem hx
    have hcast : (trueCount T S : ℤ) ≤ (trueCount T (p ++ [b]) : ℤ) := by
      exact_mod_cast hmono
    refine ⟨hs.sublist hs2Sub, ?_, by omega, by omega⟩
    rw [List.length_append, hpl]
    simp
    omega
  have hfind1 : dictFind (filter_itemsets_by_support (get_itemset_support T C) ms)
      (p ++ [a]) = some (trueCount T (p ++ [a])) :=
    (filter_support_find hinv.1).2
      ⟨hcand _ hfreq1, hfreq1.2.2.1, hfreq1.2.2.2, rfl⟩
  have hfind2 : dictFind (filter_itemsets_by_support (get_itemset_support T C) ms)
      (p ++ [b]) = some (trueCount T (p ++ [b])) :=
    (filter_support_find hinv.1).2
      ⟨hcand _ hfreq2, hfreq2.2.2.1, hfreq2.2.2.2, rfl⟩
  have hmem1 : p ++ [a] ∈ dictKeys
      (filter_itemsets_by_support (get_itemset_support T C) ms) :=
    mem_dictKeys.2 ⟨_, mem_of_dictFind_eq_some hfind1⟩
  have hmem2 : p ++ [b] ∈ dictKeys
      (filter_itemsets_by_support (get_itemset_support T C) ms) :=
    mem_dictKeys.2 ⟨_, mem_of_dictFind_eq_some hfind2⟩
  have htake1 : (p ++ [a]).take (k - 1) = p := by
    rw [← hpl, List.take_left]
  have htake2 : (p ++ [b]).take (k - 1) = p := by
    rw [← hpl, List.take_left]
  have hcanon : ∀ x, x ∈ (p ++ [a]) ++ (p ++ [b]) ↔ x ∈ S := by
    intro x
    rw [hSdecomp]
    simp only [List.mem_append, List.mem_cons, List.mem_singleton]
    tauto
  have hcanon2 : ∀ x, x ∈ (p ++ [b]) ++ (p ++ [a]) ↔ x ∈ S := by
    intro x
    rw [hSdecomp]
    simp only [List.mem_append, List.mem_cons, List.mem_singleton]
    tauto
  rcases allPairs_complete hmem1 hmem2 hs1ne with hpr | hpr
  · exact mem_generate_candidates.2
      ⟨(p ++ [a], p ++ [b]), hpr, by rw [htake1, htake2],
        (canon_eq_of_sorted hs hcanon).symm⟩
  · exact mem_generate_candidates.2
      ⟨(p ++ [b], p ++ [a]), hpr, by rw [htake1, htake2],
        (canon_eq_of_sorted hs hcanon2).symm⟩

theorem acc_final {T : List Transaction} {ms : ℤ} {k : ℕ} {acc : SupportDict}
    (hk : 1 ≤ k) (hempty : ∀ S, FreqAt T ms k S → False)
    (hsome : ∀ S n, dictFind acc S = some n → FreqBelow T ms k S ∧ n = trueCount T S)
    (hcomp : ∀ S, FreqBelow T ms k S → dictFind acc S = some (trueCount T S)) :
    ∀ S n, dictFind acc S = some n ↔ (FreqAll T ms S ∧ n = trueCount T S) := by
  intro S n
  constructor
  · intro h
    obtain ⟨hb, hn⟩ := hsome S n h
    exact ⟨⟨hb.1, hb.2.1, hb.2.2.2.1, hb.2.2.2.2⟩, hn⟩
  · rintro ⟨hall, hn⟩
    have hlt := freqAll_lt_of_empty hk hempty hall
    rw [hn]
    exact hcomp S ⟨hall.1, hall.2.1, hlt, hall.2.2.1, hall.2.2.2⟩

theorem noNarrowAux_find {U : Finset ℕ} {T : List Transaction} {ms : ℤ} :
    ∀ fuel (C : List Itemset) (k : ℕ) (acc : SupportDict),
      LevelInv U k C → 1 ≤ k → U.card + 2 ≤ fuel + k →
      (∀ S, FreqAt T ms k S → S ∈ C) →
      (dictKeys acc).Nodup →
      (∀ S n, dictFind acc S = some n → FreqBelow T ms k S ∧ n = trueCount T S) →
      (∀ S, FreqBelow T ms k S → dictFind acc S = some (trueCount T S)) →
      ∀ S n,
        dictFind (aprioriNoNarrowAux fuel T C k acc ms) S = some n ↔
          (FreqAll T ms S ∧ n = trueCount T S) := by
  intro fuel
  induction fuel with
  | zero =>
      intro C k acc hinv hk hb hcand hnd hsome hcomp S n
      cases C with
      | nil =>
          exact acc_final hk (fun S' hS' => List.not_mem_nil S' (hcand S' hS'))
            hsome hcomp S n
      | cons c cs =>
          exfalso
          have := levelInv_le_card hinv (by simp)
          omega
  | succ fuel ih =>
      intro C k acc hinv hk hb hcand hnd hsome hcomp S n
      cases C with
      | nil =>
          rw [aprioriNoNarrowAux_nil]
          exact acc_final hk (fun S' hS' => List.not_mem_nil S' (hcand S' hS'))
            hsome hcomp S n
      | cons c cs =>
          rw [aprioriNoNarrowAux_cons]
          refine ih _ (k + 1) _ (levelInv_step hinv hk T ms) (by omega) (by omega)
            (next_complete hinv hk hcand) (dictKeys_dictUpdate_nodup hnd) ?_ ?_ S n
          · intro S' n' h
            cases hfind : dictFind
                (filter_itemsets_by_support (get_itemset_support T (c :: cs)) ms) S' with
            | some v =>
                rw [dictFind_dictUpdate_of_some (freq_keys_nodup T (c :: cs) ms) hfind] at h
                obtain ⟨hSC, h1, hms2, hv⟩ := (filter_support_find hinv.1).1 hfind
                obtain ⟨hsort, hlen, _⟩ := hinv.2 S' hSC
                have hn : n' = v := (Option.some.inj h).symm
                exact ⟨⟨hsort, by omega, by omega, h1, hms2⟩, by rw [hn, hv]⟩
            | none =>
                rw [dictFind_dictUpdate_of_none hfind] at h
                obtain ⟨hb', hn⟩ := hsome S' n' h
                exact ⟨⟨hb'.1, hb'.2.1, by have := hb'.2.2.1; omega,
                  hb'.2.2.2.1, hb'.2.2.2.2⟩, hn⟩
          · intro S' hbel
            obtain ⟨hsort, hlen1, hlenk, h1, hms2⟩ := hbel
            by_cases hlen : S'.length = k
            · have hfa : FreqAt T ms k S' := ⟨hsort, hlen, h1, hms2⟩
              have hfind := (filter_support_find hinv.1).2 ⟨hcand S' hfa, h1, hms2, rfl⟩
              exact dictFind_dictUpdate_of_some (freq_keys_nodup T (c :: cs) ms) hfind
            · have hbk : FreqBelow T ms k S' := ⟨hsort, hlen1, by omega, h1, hms2⟩
              have hfind : dictFind
                  (filter_itemsets_by_support (get_itemset_support T (c :: cs)) ms) S' =
                    none := by
                cases hfind2 : dictFind
                    (filter_itemsets_by_support (get_itemset_support T (c :: cs)) ms)
                    S' with
                | none => rfl
                | some v =>
                    exfalso
                    obtain ⟨hSC, _⟩ := (filter_support_find hinv.1).1 hfind2
                    obtain ⟨_, hlen2, _⟩ := hinv.2 S' hSC
                    exact hlen hlen2
              rw [dictFind_dictUpdate_of_none hfind]
              exact hcomp S' hbk

/-- The central characterization: the table `apriori` returns holds exactly the
nonempty canonical itemsets that occur in at least one transaction and meet the
minimum support, each mapped to its true support count. -/
theorem apriori_find {T : List Transaction} {ms : ℤ} {S : Itemset} {n : ℕ} :
    dictFind (apriori T ms) S = some n ↔ (FreqAll T ms S ∧ n = trueCount T S) := by
  rw [apriori, aprioriAux_eq_noNarrow]
  refine noNarrowAux_find _ _ 1 [] (levelInv_initial T) le_rfl (by omega) ?_
    (by simp [dictKeys]) (fun S' n' h => by simp [dictFind] at h)
    (fun S' hb => by
      exfalso
      have h1 := hb.2.1
      have h2 := hb.2.2.1
      omega) S n
  intro S' hS'
  obtain ⟨hsort, hlen, h1, hms⟩ := hS'
  rcases List.length_eq_one.1 hlen with ⟨x, hx⟩
  subst hx
  rw [initialCandidates, List.mem_map]
  refine ⟨x, ?_, rfl⟩
  rw [mem_canon]
  rcases exists_transaction_of_trueCount_pos h1 with ⟨t, ht, hsub⟩
  have hxt : x ∈ t := subsetOf_iff.1 hsub x (List.mem_singleton_self x)
  exact List.mem_flatten.2 ⟨t, ht, hxt⟩

/-! ### Thresholds at most one are indistinguishable: every recorded count is
positive -/

theorem filter_eq_of_le_one {d : SupportDict} {ms : ℤ} (hms : ms ≤ 1)
    (hd : ∀ q ∈ d, 1 ≤ q.2) :
    filter_itemsets_by_support d ms = filter_itemsets_by_support d 1 := by
  rw [filter_itemsets_by_support, filter_itemsets_by_support]
  apply List.filter_congr
  intro p hp
  have h2 : (1 : ℤ) ≤ (p.2 : ℤ) := by exact_mod_cast hd p hp
  have h3 : ms ≤ (p.2 : ℤ) := le_trans hms h2
  simp [h2, h3]

theorem aprioriAux_le_one :
    ∀ fuel (T : List Transaction) (C : List Itemset) (k : ℕ) (acc : SupportDict)
      (ms : ℤ), ms ≤ 1 →
      aprioriAux fuel T C k acc ms = aprioriAux fuel T C k acc 1 := by
  intro fuel
  induction fuel with
  | zero => intros; rfl
  | succ fuel ih =>
      intro T C k acc ms hms
      cases C with
      | nil => rfl
      | cons c cs =>
          rw [aprioriAux_cons, aprioriAux_cons,
            filter_eq_of_le_one hms get_itemset_support_value_pos, ih _ _ _ _ _ hms]

theorem apriori_le_one (T : List Transaction) (ms : ℤ) (hms : ms ≤ 1) :
    apriori T ms = apriori T 1 := by
  rw [apriori, apriori, aprioriAux_le_one _ _ _ _ _ _ hms]

theorem filter_itemsets_idem (d : SupportDict) (ms : ℤ) :
    filter_itemsets_by_support (filter_itemsets_by_support d ms) ms =
      filter_itemsets_by_support d ms := by
  unfold filter_itemsets_by_support
  rw [List.filter_filter]
  exact List.filter_congr fun p hp => Bool.and_self _

/-! ## The claims -/

/-- C1: the claim asserts that a lookup of an antecedent absent from the
Frequent Itemset Table fails with a distinct `MissingAntecedentSupport` error
kind.  The source instead silently defaults the support to `0`
(`frequent_itemsets.get(antecedent, 0)`) and the confidence division then
raises `ZeroDivisionError` — exactly the division fault the specification says
must not happen; no `MissingAntecedentSupport` error kind exists anywhere in
the code.  On the table `{(1,2): 2}`, whose antecedent `(1,)` is missing, the
rule generator aborts with the division error. -/
theorem claim_C1_zero_division :
    generate_association_rules [([1, 2], 2)] (1 / 2) 4 =
      Except.error RuleError.zeroDivision := rfl

/-- C2 counterexample: from the frequent 2-itemsets `{(1,2): 2, (1,3): 2}`,
`generate_candidates` emits the candidate `(1,2,3)` although its 2-subset
`(2,3)` is absent from the frequent table — no subset-pruning step removes it
before it is handed to the Support Counter. -/
theorem claim_C2_counterexample :
    generate_candidates [([1, 2], 2), ([1, 3], 2)] 2 = [[1, 2, 3]] ∧
      dictFind [([1, 2], 2), ([1, 3], 2)] [2, 3] = none ∧
      (∀ x ∈ ([2, 3] : Itemset), x ∈ ([1, 2, 3] : Itemset)) := by decide

/-- C2 amended: the Candidate Generator performs only the prefix join — every
candidate is the canonical union of two distinct keys of the frequent table
that agree on their first `k-1` items, so only those two `(k-1)`-subsets are
guaranteed frequent; no subset-pruning check over the remaining subsets is
applied before the candidate reaches the Support Counter. -/
theorem claim_C2_amended (F : SupportDict) (k : ℕ) (hnd : (dictKeys F).Nodup)
    (c : Itemset) (hc : c ∈ generate_candidates F k) :
    ∃ s t, s ∈ dictKeys F ∧ t ∈ dictKeys F ∧ s ≠ t ∧
      s.take (k - 1) = t.take (k - 1) ∧ c = canon (s ++ t) := by
  rcases mem_generate_candidates.1 hc with ⟨pr, hpr, hcond, he⟩
  exact ⟨pr.1, pr.2, (mem_allPairs hpr).1, (mem_allPairs hpr).2,
    allPairs_ne hnd hpr, hcond, he⟩

/-- C2 witness: the amended statement evaluated on the frequent table
`{(1,2): 2, (1,3): 2}` and its candidate `(1,2,3)`. -/
theorem claim_C2_witness :
    (dictKeys [([1, 2], 2), ([1, 3], 2)]).Nodup ∧
      [1, 2, 3] ∈ generate_candidates [([1, 2], 2), ([1, 3], 2)] 2 ∧
      ∃ s t, s ∈ dictKeys [([1, 2], 2), ([1, 3], 2)] ∧
        t ∈ dictKeys [([1, 2], 2), ([1, 3], 2)] ∧ s ≠ t ∧
        s.take 1 = t.take 1 ∧ [1, 2, 3] = canon (s ++ t) :=
  ⟨by decide, by decide,
    claim_C2_amended [([1, 2], 2), ([1, 3], 2)] 2 (by decide) [1, 2, 3] (by decide)⟩

/-- C3 counterexample: no `InvalidThreshold` rejection exists.  With the
invalid minimum support `-1` the engine computes a table as usual, and with
minimum confidence `3/2 ∉ [0,1]` the rule generator runs to a normal (empty)
result instead of rejecting the configuration. -/
theorem claim_C3_counterexample :
    apriori [[1]] (-1) = [([1], 1)] ∧
      generate_association_rules [([1], 3), ([2], 2)] (3 / 2) 7 = Except.ok [] :=
  ⟨by decide, rfl⟩

/-- C3 amended: the code performs no threshold validation and both components
do their work on out-of-range thresholds.  For `apriori`, because every count
the Support Counter records is at least 1, every minimum support `≤ 1`
(in particular every negative one) produces exactly the table of threshold 1;
`generate_association_rules` likewise accepts any minimum confidence (see the
counterexample). -/
theorem claim_C3_amended (T : List Transaction) (ms : ℤ) (hms : ms ≤ 1) :
    apriori T ms = apriori T 1 :=
  apriori_le_one T ms hms

/-- C3 witness: the amended statement at the invalid minimum support `-1`. -/
theorem claim_C3_witness :
    (-1 : ℤ) ≤ 1 ∧ apriori [[1]] (-1) = apriori [[1]] 1 :=
  ⟨by decide, claim_C3_amended [[1]] (-1) (by decide)⟩

/-- C4 counterexample: the claim demands that a candidate contained in no
transaction be present with support count 0; but `get_itemset_support` uses a
`defaultdict` that creates keys only on increment, so the candidate `(2,)`
against the dataset `[{1}]` receives no key at all — the returned mapping is
empty and the lookup misses. -/
theorem claim_C4_counterexample :
    get_itemset_support [[1]] [[2]] = [] ∧
      dictFind (get_itemset_support [[1]] [[2]]) [2] = none := by decide

/-- C4 amended: for a duplicate-free candidate list, the keys of the returned
mapping are exactly the candidates contained in at least one transaction, each
mapped to the number of transactions that are supersets of it; a candidate
contained in no transaction is absent from the mapping rather than present
with count 0. -/
theorem claim_C4_amended (T : List Transaction) (C : List Itemset)
    (hnd : C.Nodup) :
    (∀ p ∈ get_itemset_support T C, p.1 ∈ C) ∧
      ∀ c ∈ C, dictFind (get_itemset_support T C) c =
        if trueCount T c = 0 then none else some (trueCount T c) :=
  ⟨fun p hp => mem_dictKeys_get_itemset_support (List.mem_map_of_mem Prod.fst hp),
    fun c hc => get_itemset_support_find hnd hc T⟩

/-- C4 witness: the amended statement on the dataset `[{1,2}, {2}]` and the
candidates `{(2,), (3,)}`: `(2,)` gets count 2 and `(3,)` gets no key. -/
theorem claim_C4_witness :
    ([[2], [3]] : List Itemset).Nodup ∧
      ((∀ p ∈ get_itemset_support [[1, 2], [2]] [[2], [3]], p.1 ∈ [[2], [3]]) ∧
        ∀ c ∈ ([[2], [3]] : List Itemset),
          dictFind (get_itemset_support [[1, 2], [2]] [[2], [3]]) c =
            if trueCount [[1, 2], [2]] c = 0 then none
            else some (trueCount [[1, 2], [2]] c)) :=
  ⟨by decide, claim_C4_amended [[1, 2], [2]] [[2], [3]] (by decide)⟩

/-- C5: Scenario A.  On `[{1,2,3}, {1,2}, {1,3}, {2,3}]` with minimum support
2 the engine returns exactly the six expected frequent itemsets with their
counts, `(1,2,3)` (support 1) is excluded, and the run reaches level 3 in the
state where the narrowed dataset is `[{1,2,3}]` and the sole candidate
`(1,2,3)` is filtered out, so level 3 produces no frequent itemsets and
candidate generation from the empty table then ends the loop. -/
theorem claim_C5_scenario_a :
    apriori [[1, 2, 3], [1, 2], [1, 3], [2, 3]] 2 =
        [([1], 3), ([2], 3), ([3], 3), ([1, 2], 2), ([1, 3], 2), ([2, 3], 2)] ∧
      dictFind (apriori [[1, 2, 3], [1, 2], [1, 3], [2, 3]] 2) [1, 2, 3] = none ∧
      filter_itemsets_by_support (get_itemset_support [[1, 2, 3]] [[1, 2, 3]]) 2 = [] ∧
      generate_candidates [] 3 = [] := by decide

/-- C6: the transaction-narrowing optimization is a refinement — for every
dataset and minimum support, `apriori` with the `k > 2` narrowing step returns
exactly the table of the identical level-wise loop run without narrowing, since
a dropped transaction matches no current candidate and hence no later one. -/
theorem claim_C6_narrowing_refinement (T : List Transaction) (ms : ℤ) :
    apriori T ms = aprioriNoNarrow T ms := by
  rw [apriori, aprioriNoNarrow, aprioriAux_eq_noNarrow]

/-- C7 counterexample: anti-monotonicity fails as literally stated, on the
empty subset: the Scenario A table records `(1,)` with support 3, the empty
itemset is a subset of `(1,)`, yet the empty itemset never appears in the
table (the engine only ever evaluates itemsets of size at least 1). -/
theorem claim_C7_counterexample :
    (∀ x ∈ ([] : Itemset), x ∈ ([1] : Itemset)) ∧
      dictFind (apriori [[1, 2, 3], [1, 2], [1, 3], [2, 3]] 2) [1] = some 3 ∧
      dictFind (apriori [[1, 2, 3], [1, 2], [1, 3], [2, 3]] 2) [] = none := by decide

/-- C7 amended: anti-monotonicity holds for nonempty subsets — whenever the
table returned by `apriori` records `S` with support `n`, the canonical form
of every nonempty `S' ⊆ S` is also recorded, with support at least `n`. -/
theorem claim_C7_amended {T : List Transaction} {ms : ℤ} {S S' : Itemset} {n : ℕ}
    (h : dictFind (apriori T ms) S = some n) (hne : S' ≠ [])
    (hsub : ∀ x ∈ S', x ∈ S) :
    ∃ n', dictFind (apriori T ms) (canon S') = some n' ∧ n ≤ n' := by
  obtain ⟨hall, hn⟩ := apriori_find.1 h
  have hsub2 : ∀ x ∈ canon S', x ∈ S := fun x hx => hsub x (mem_canon.1 hx)
  have hmono : trueCount T S ≤ trueCount T (canon S') := trueCount_mono hsub2
  obtain ⟨x, hx⟩ := List.exists_mem_of_ne_nil S' hne
  have hxc : x ∈ canon S' := mem_canon.2 hx
  have hlen : 1 ≤ (canon S').length := List.length_pos.2 (List.ne_nil_of_mem hxc)
  have hcast : (trueCount T S : ℤ) ≤ (trueCount T (canon S') : ℤ) := by
    exact_mod_cast hmono
  refine ⟨trueCount T (canon S'),
    apriori_find.2 ⟨⟨canon_sorted_lt S', hlen, ?_, ?_⟩, rfl⟩, ?_⟩
  · have := hall.2.2.1
    omega
  · have := hall.2.2.2
    omega
  · omega

/-- C7 witness: the amended statement on the Scenario A table, at
`S = (1,2)` (support 2) and its nonempty subset `S' = (1,)` (support 3). -/
theorem claim_C7_witness :
    dictFind (apriori [[1, 2, 3], [1, 2], [1, 3], [2, 3]] 2) [1, 2] = some 2 ∧
      ([1] : Itemset) ≠ [] ∧ (∀ x ∈ ([1] : Itemset), x ∈ ([1, 2] : Itemset)) ∧
      ∃ n', dictFind (apriori [[1, 2, 3], [1, 2], [1, 3], [2, 3]] 2) (canon [1]) =
        some n' ∧ 2 ≤ n' :=
  ⟨by decide, by decide, by decide,
    @claim_C7_amended [[1, 2, 3], [1, 2], [1, 3], [2, 3]] 2 [1, 2] [1] 2
      (by decide) (by decide) (by decide)⟩

/-- C8: the Itemset Filter returns exactly the submapping of entries whose
count meets the threshold — an entry with count equal to the threshold is
retained, one below is dropped (the membership equivalence covers both
boundary cases) — and it is idempotent. -/
theorem claim_C8_filter_contract (d : SupportDict) (ms : ℤ) (h : 0 ≤ ms) :
    (∀ p : Itemset × ℕ,
        p ∈ filter_itemsets_by_support d ms ↔ p ∈ d ∧ ms ≤ (p.2 : ℤ)) ∧
      filter_itemsets_by_support (filter_itemsets_by_support d ms) ms =
        filter_itemsets_by_support d ms :=
  ⟨fun _ => mem_filter_itemsets, filter_itemsets_idem d ms⟩

/-- C8 witness: the filter contract at threshold 2 on a mapping holding counts
2 (retained, boundary) and 1 (dropped). -/
theorem claim_C8_witness :
    (0 : ℤ) ≤ 2 ∧
      ((∀ p : Itemset × ℕ,
          p ∈ filter_itemsets_by_support [([1], 2), ([2], 1)] 2 ↔
            p ∈ [([1], 2), ([2], 1)] ∧ 2 ≤ (p.2 : ℤ)) ∧
        filter_itemsets_by_support
            (filter_itemsets_by_support [([1], 2), ([2], 1)] 2) 2 =
          filter_itemsets_by_support [([1], 2), ([2], 1)] 2) :=
  ⟨by decide, claim_C8_filter_contract [([1], 2), ([2], 1)] 2 (by decide)⟩

/-- C9: the level-wise loop terminates.  Running the loop with any fuel beyond
`#distinct items + 1` changes nothing (the candidate size grows by one per
level and is bounded by the number of distinct items, so the loop has already
reached its final state); the loop returns as soon as the candidate list is
empty, and an empty frequent table generates an empty candidate list. -/
theorem claim_C9_termination :
    (∀ (T : List Transaction) (ms : ℤ) (extra : ℕ),
        aprioriAux ((itemUniverse T).card + 1 + extra) T (initialCandidates T) 1 []
            ms =
          apriori T ms) ∧
      (∀ (fuel : ℕ) (T : List Transaction) (k : ℕ) (acc : SupportDict) (ms : ℤ),
        aprioriAux fuel T [] k acc ms = acc) ∧
      ∀ k, generate_candidates [] k = [] :=
  ⟨apriori_fuel_stable, aprioriAux_nil, fun _ => rfl⟩

/-- C10: the `transactions_count` argument of `generate_association_rules` is
never read by the body, so any two values of it yield identical results. -/
theorem claim_C10_transactions_count_irrelevant
    (freq : SupportDict) (mc : ℚ) (c1 c2 : ℕ) :
    generate_association_rules freq mc c1 = generate_association_rules freq mc c2 :=
  rfl
